import Mathlib

/-!
Verification of the codemod patch-generation engine.

Strings of the Python source are modelled as lists of characters
(`Str := List Char`).  Fallible operations (Python exceptions) are
modelled with `Option`.  Every definition below is translated from the
repository source; the file the definition comes from is named in its
doc comment.
-/

namespace Codemod

/-- Python strings, modelled as lists of characters. -/
abbrev Str := List Char

/-! ### Python string primitives used by position.py -/

/-- Python `s.split(sep)` for a one-character separator: splits at every
occurrence of `sep` (`"".split(sep) == [""]`). -/
def pySplit (sep : Char) : Str → List Str
  | [] => [[]]
  | c :: cs =>
    let r := pySplit sep cs
    if c = sep then [] :: r
    else (c :: r.headD []) :: r.tail

/-- Python `s.strip()`: remove leading and trailing whitespace. -/
def pyStrip (s : Str) : Str :=
  ((s.dropWhile Char.isWhitespace).reverse.dropWhile Char.isWhitespace).reverse

/-- The character of a decimal digit value. -/
def digitChar (n : Nat) : Char := Char.ofNat (48 + n)

/-- The decimal value of a digit character. -/
def digitVal (c : Char) : Nat := c.toNat - 48

/-- Digit sequence of Python `int(str)` after the optional sign: decimal
digits, where a single underscore may separate two digits. -/
def parseDigitsGo (acc : Nat) : Str → Option Nat
  | [] => some acc
  | c :: cs =>
    if c.isDigit then parseDigitsGo (acc * 10 + digitVal c) cs
    else if c = '_' then
      match cs with
      | [] => none
      | c2 :: cs2 =>
        if c2.isDigit then parseDigitsGo (acc * 10 + digitVal c2) cs2 else none
    else none

/-- Nonempty digit sequence (first character must be a digit). -/
def parseDigits : Str → Option Nat
  | [] => none
  | c :: cs => if c.isDigit then parseDigitsGo (digitVal c) cs else none

/-- Sign handling of Python `int(str)`: an optional leading `+` or `-`
followed by the digit sequence. -/
def pyIntSigned (c : Char) (rest : Str) : Option Int :=
  if c = '+' then (parseDigits rest).map Int.ofNat
  else if c = '-' then (parseDigits rest).map (fun n => -(Int.ofNat n))
  else (parseDigits (c :: rest)).map Int.ofNat

/-- Python `int(string)`: strip whitespace, optional sign, digit sequence;
`none` models the `ValueError` raised on malformed input. -/
def pyIntOfChars (s : Str) : Option Int :=
  match pyStrip s with
  | [] => none
  | c :: rest => pyIntSigned c rest

/-- Decimal digit characters of a natural number, most significant first,
with explicit fuel (the fuel `n + 1` always suffices). -/
def natToDigitsAux : Nat → Nat → Str → Str
  | 0, _, acc => acc
  | fuel + 1, n, acc =>
    if n < 10 then digitChar n :: acc
    else natToDigitsAux fuel (n / 10) (digitChar (n % 10) :: acc)

/-- Decimal digit characters of a natural number, most significant first. -/
def natToDigits (n : Nat) : Str := natToDigitsAux (n + 1) n []

/-- Python `'%d' % n` rendering of an integer. -/
def intToChars (n : Int) : Str :=
  if n < 0 then '-' :: natToDigits n.natAbs else natToDigits n.natAbs

/-! ### Position (src/codemod/position.py) -/

/-- `Position.__init__` in its one-string-argument form: Python
`self.path, line_number_s = arg.split(':')` unpacks the split into exactly
two parts (a `ValueError` — modelled `none` — is raised when the split does
not have exactly two parts, in particular when the path itself contains a
colon), then `int(line_number_s)` parses the line number. -/
def positionOfString (s : Str) : Option (Str × Int) :=
  match pySplit ':' s with
  | [p, ns] =>
    match pyIntOfChars ns with
    | some n => some (p, n)
    | none => none
  | _ => none

/-- `Position.__str__`: `'%s:%d' % (path, line_number)`. -/
def positionToString (p : Str × Int) : Str :=
  p.1 ++ ':' :: intToChars p.2

/-! ### Lemmas on the decimal rendering and parsing primitives -/

/-- Reference recursion for the decimal digits of a natural number. -/
def natDigitsSpec (n : Nat) : Str :=
  if _h : n < 10 then [digitChar n]
  else natDigitsSpec (n / 10) ++ [digitChar (n % 10)]
decreasing_by exact Nat.div_lt_self (by omega) (by omega)

/-- One parsing step of a digit character onto an accumulator. -/
def digAcc (a : Nat) (c : Char) : Nat := a * 10 + digitVal c

theorem digitChar_spec (d : Nat) (h : d < 10) :
    (digitChar d).isDigit = true ∧ digitVal (digitChar d) = d ∧
    digitChar d ≠ ':' ∧ digitChar d ≠ '+' ∧ digitChar d ≠ '-' ∧
    (digitChar d).isWhitespace = false := by
  interval_cases d <;> decide

theorem natToDigitsAux_eq (n : Nat) : ∀ (fuel : Nat), n < fuel → ∀ (acc : Str),
    natToDigitsAux fuel n acc = natDigitsSpec n ++ acc := by
  induction n using Nat.strong_induction_on with
  | _ n ih =>
    intro fuel hf acc
    match fuel, hf with
    | fuel + 1, _ =>
      by_cases h10 : n < 10
      · rw [natToDigitsAux, if_pos h10, natDigitsSpec, dif_pos h10]
        rfl
      · rw [natToDigitsAux, if_neg h10, natDigitsSpec, dif_neg h10]
        rw [ih (n / 10) (Nat.div_lt_self (by omega) (by omega)) fuel (by
          have := Nat.div_lt_self (show 0 < n by omega) (show 1 < 10 by omega)
          omega)]
        simp

theorem natToDigits_eq (n : Nat) : natToDigits n = natDigitsSpec n := by
  rw [natToDigits, natToDigitsAux_eq n (n + 1) (Nat.lt_succ_self n) []]
  simp

theorem natDigitsSpec_digits (n : Nat) : ∀ c ∈ natDigitsSpec n, c.isDigit = true := by
  induction n using Nat.strong_induction_on with
  | _ n ih =>
    intro c hc
    by_cases h10 : n < 10
    · rw [natDigitsSpec, dif_pos h10] at hc
      simp at hc
      rw [hc]
      exact (digitChar_spec n h10).1
    · rw [natDigitsSpec, dif_neg h10] at hc
      rcases List.mem_append.1 hc with h | h
      · exact ih (n / 10) (Nat.div_lt_self (by omega) (by omega)) c h
      · simp at h
        rw [h]
        exact (digitChar_spec (n % 10) (Nat.mod_lt n (by omega))).1

theorem natDigitsSpec_ne_nil (n : Nat) : natDigitsSpec n ≠ [] := by
  by_cases h10 : n < 10
  · rw [natDigitsSpec, dif_pos h10]
    simp
  · rw [natDigitsSpec, dif_neg h10]
    simp

theorem natDigitsSpec_foldl (n : Nat) : ∀ acc : Nat,
    (natDigitsSpec n).foldl digAcc acc = acc * 10 ^ (natDigitsSpec n).length + n := by
  induction n using Nat.strong_induction_on with
  | _ n ih =>
    intro acc
    by_cases h10 : n < 10
    · rw [natDigitsSpec, dif_pos h10]
      simp [digAcc, (digitChar_spec n h10).2.1]
    · rw [natDigitsSpec, dif_neg h10]
      rw [List.foldl_append, ih (n / 10) (Nat.div_lt_self (by omega) (by omega)) acc]
      simp only [List.foldl_cons, List.foldl_nil, List.length_append, List.length_singleton]
      rw [digAcc, (digitChar_spec (n % 10) (Nat.mod_lt n (by omega))).2.1]
      calc (acc * 10 ^ (natDigitsSpec (n / 10)).length + n / 10) * 10 + n % 10
          = acc * (10 ^ (natDigitsSpec (n / 10)).length * 10) + (n / 10 * 10 + n % 10) := by
            ring
        _ = acc * 10 ^ ((natDigitsSpec (n / 10)).length + 1) + n := by
            rw [pow_succ]
            have hdm : n / 10 * 10 + n % 10 = n := by omega
            rw [hdm]

theorem parseDigitsGo_cons_digit (acc : Nat) (c : Char) (cs : Str) (hc : c.isDigit = true) :
    parseDigitsGo acc (c :: cs) = parseDigitsGo (acc * 10 + digitVal c) cs := by
  rw [parseDigitsGo.eq_def]
  simp only [hc, if_true]

theorem parseDigitsGo_all_digits (l : Str) : ∀ acc : Nat, (∀ c ∈ l, c.isDigit = true) →
    parseDigitsGo acc l = some (l.foldl digAcc acc) := by
  induction l with
  | nil => intro acc _; rfl
  | cons c cs ih =>
    intro acc h
    rw [parseDigitsGo_cons_digit acc c cs (h c (by simp))]
    rw [ih _ (fun x hx => h x (by simp [hx]))]
    rfl

theorem parseDigits_natDigitsSpec (n : Nat) : parseDigits (natDigitsSpec n) = some n := by
  rcases hsh : natDigitsSpec n with _ | ⟨c, cs⟩
  · exact absurd hsh (natDigitsSpec_ne_nil n)
  · have hdig : ∀ x ∈ natDigitsSpec n, x.isDigit = true := natDigitsSpec_digits n
    rw [hsh] at hdig
    rw [parseDigits, if_pos (hdig c (by simp))]
    rw [parseDigitsGo_all_digits cs (digitVal c) (fun x hx => hdig x (by simp [hx]))]
    have : (c :: cs).foldl digAcc 0 = cs.foldl digAcc (digitVal c) := by
      simp [digAcc]
    rw [← this, ← hsh, natDigitsSpec_foldl n 0]
    simp

theorem dropWhile_eq_self_of (p : Char → Bool) (l : Str) (h : ∀ c ∈ l, p c = false) :
    l.dropWhile p = l := by
  cases l with
  | nil => rfl
  | cons x xs =>
    rw [List.dropWhile_cons, h x (by simp)]
    simp

theorem pyStrip_eq_self (l : Str) (h : ∀ c ∈ l, c.isWhitespace = false) :
    pyStrip l = l := by
  rw [pyStrip, dropWhile_eq_self_of _ l h,
    dropWhile_eq_self_of _ l.reverse (fun c hc => h c (List.mem_reverse.1 hc))]
  simp

theorem isDigit_ne_signs (c : Char) (h : c.isDigit = true) :
    c ≠ '+' ∧ c ≠ '-' ∧ c ≠ ':' ∧ c.isWhitespace = false := by
  refine ⟨fun hc => ?_, fun hc => ?_, fun hc => ?_, ?_⟩
  · rw [hc] at h; exact absurd h (by decide)
  · rw [hc] at h; exact absurd h (by decide)
  · rw [hc] at h; exact absurd h (by decide)
  · by_contra hw
    simp only [Bool.not_eq_false] at hw
    have hcases : ((c = ' ' ∨ c = '\t') ∨ c = '\r') ∨ c = '\n' := by
      simpa [Char.isWhitespace] using hw
    rcases hcases with ((h1 | h1) | h1) | h1 <;> rw [h1] at h <;> exact absurd h (by decide)

theorem pyIntOfChars_cons (s : Str) (c : Char) (rest : Str) (h : pyStrip s = c :: rest) :
    pyIntOfChars s = pyIntSigned c rest := by
  rw [pyIntOfChars, h]

theorem pyIntOfChars_intToChars (n : Int) : pyIntOfChars (intToChars n) = some n := by
  by_cases hn : n < 0
  · rw [intToChars, if_pos hn, natToDigits_eq]
    rw [pyIntOfChars_cons _ '-' (natDigitsSpec n.natAbs) (pyStrip_eq_self _ (by
      intro c hc
      rcases List.mem_cons.1 hc with hc | hc
      · rw [hc]; decide
      · exact (isDigit_ne_signs c (natDigitsSpec_digits _ c hc)).2.2.2))]
    rw [pyIntSigned, if_neg (by decide), if_pos rfl, parseDigits_natDigitsSpec]
    rw [Option.map_some']
    simp only [Int.ofNat_eq_natCast]
    congr 1
    omega
  · rw [intToChars, if_neg hn, natToDigits_eq]
    rcases hsh : natDigitsSpec n.natAbs with _ | ⟨c, cs⟩
    · exact absurd hsh (natDigitsSpec_ne_nil _)
    · have hdig : c.isDigit = true :=
        natDigitsSpec_digits n.natAbs c (by rw [hsh]; simp)
      rw [pyIntOfChars_cons _ c cs (by
        rw [← hsh]
        exact pyStrip_eq_self _ (fun x hx =>
          (isDigit_ne_signs x (natDigitsSpec_digits _ x hx)).2.2.2))]
      rw [pyIntSigned, if_neg (isDigit_ne_signs c hdig).1,
        if_neg (isDigit_ne_signs c hdig).2.1]
      rw [← hsh, parseDigits_natDigitsSpec]
      rw [Option.map_some']
      simp only [Int.ofNat_eq_natCast]
      congr 1
      omega

theorem colon_not_mem_natDigitsSpec (m : Nat) : ':' ∉ natDigitsSpec m := fun hd =>
  absurd (natDigitsSpec_digits m ':' hd) (by decide)

theorem colon_not_mem_intToChars (n : Int) : ':' ∉ intToChars n := by
  rw [intToChars]
  by_cases hn : n < 0
  · rw [if_pos hn, natToDigits_eq]
    intro hmem
    rcases List.mem_cons.1 hmem with h | h
    · exact absurd h (by decide)
    · exact colon_not_mem_natDigitsSpec _ h
  · rw [if_neg hn, natToDigits_eq]
    exact colon_not_mem_natDigitsSpec _

/-! ### Lemmas on pySplit -/

theorem pySplit_ne_nil (sep : Char) (l : Str) : pySplit sep l ≠ [] := by
  cases l with
  | nil => simp [pySplit]
  | cons c cs =>
    rw [pySplit]
    by_cases h : c = sep <;> simp [h]

theorem pySplit_of_not_mem (sep : Char) (l : Str) (h : sep ∉ l) :
    pySplit sep l = [l] := by
  induction l with
  | nil => rfl
  | cons c cs ih =>
    rw [pySplit, if_neg (by intro hc; exact h (by simp [hc]))]
    rw [ih (fun hc => h (by simp [hc]))]
    simp

theorem pySplit_append (sep : Char) (a b : Str) (h : sep ∉ a) :
    pySplit sep (a ++ sep :: b) = a :: pySplit sep b := by
  induction a with
  | nil => simp [pySplit]
  | cons c cs ih =>
    rw [List.cons_append, pySplit, if_neg (by intro hc; exact h (by simp [hc]))]
    rw [ih (fun hc => h (by simp [hc]))]
    simp

theorem positionOfString_two (s p ns : Str) (h : pySplit ':' s = [p, ns]) :
    positionOfString s =
      match pyIntOfChars ns with
      | some n => some (p, n)
      | none => none := by
  rw [positionOfString, h]

/-- Parsing a well-formed serialization `path ++ ":" ++ digits-of-n`
succeeds when the path contains no colon. -/
theorem positionOfString_wellFormed (path : Str) (n : Int) (h : ':' ∉ path) :
    positionOfString (path ++ ':' :: intToChars n) = some (path, n) := by
  rw [positionOfString_two _ path (intToChars n)
    (by rw [pySplit_append ':' path _ h,
      pySplit_of_not_mem ':' _ (colon_not_mem_intToChars n)])]
  rw [pyIntOfChars_intToChars]

/-! ### Claims C3 and C7: Position parsing -/

/-- C3 as stated is false: `"a:b:5"` is of the form `path:N` (with the path
`"a:b"` containing a colon); split-on-last-colon semantics would construct
`("a:b", 5)`, but `Position.__init__` splits on every colon, the two-part
unpacking fails, and construction raises a ValueError (modelled `none`). -/
theorem position_lastColon_counterexample :
    positionOfString ['a', ':', 'b', ':', '5'] = none ∧
    positionOfString ['a', ':', 'b', ':', '5'] ≠ some (['a', ':', 'b'], 5) := by
  constructor
  · decide
  · decide

/-- C3 (amended): Position construction from a string succeeds exactly on
strings with exactly one colon whose suffix parses as an integer, yielding
the part before the colon as path and the parsed integer as line number;
a string whose split on `':'` does not have exactly two parts (in
particular one whose path contains a colon), or whose suffix is not an
integer, fails at construction time with a ValueError, never silently
defaulting. -/
theorem position_parse_spec :
    (∀ (path : Str) (n : Int), ':' ∉ path →
      positionOfString (path ++ ':' :: intToChars n) = some (path, n)) ∧
    (∀ s : Str, (pySplit ':' s).length ≠ 2 → positionOfString s = none) ∧
    (∀ (s p ns : Str), pySplit ':' s = [p, ns] → pyIntOfChars ns = none →
      positionOfString s = none) := by
  refine ⟨positionOfString_wellFormed, ?_, ?_⟩
  · intro s hlen
    rcases h2 : pySplit ':' s with _ | ⟨a, _ | ⟨b, _ | ⟨c, rest⟩⟩⟩
    · exact absurd h2 (pySplit_ne_nil ':' s)
    · rw [positionOfString, h2]
    · rw [h2] at hlen
      simp at hlen
    · rw [positionOfString, h2]
  · intro s p ns hsplit hint
    rw [positionOfString_two s p ns hsplit, hint]

/-- Witness for the amended C3 at a concrete input. -/
theorem position_parse_spec_witness :
    (':' ∉ (['a'] : Codemod.Str)) ∧
    positionOfString (['a'] ++ ':' :: intToChars 7) = some (['a'], 7) :=
  ⟨by decide, position_parse_spec.1 ['a'] 7 (by decide)⟩

/-- C7: for a Position built from a path that contains no colon (the valid
serializations) and any integer line number, serializing with `str` and
re-parsing yields an equal Position. -/
theorem position_roundtrip (path : Str) (n : Int) (h : ':' ∉ path) :
    positionOfString (positionToString (path, n)) = some (path, n) := by
  rw [positionToString]
  exact positionOfString_wellFormed path n h

/-- Witness for C7 at a concrete input. -/
theorem position_roundtrip_witness :
    (':' ∉ (['h', 'i'] : Codemod.Str)) ∧
    positionOfString (positionToString (['h', 'i'], 20)) = some (['h', 'i'], 20) :=
  ⟨by decide, position_roundtrip ['h', 'i'] 20 (by decide)⟩

/-! ### Python string tests used by the path predicates -/

/-- Does the second list start with the first? -/
def beginsWith : Str → Str → Bool
  | [], _ => true
  | _ :: _, [] => false
  | a :: as, b :: bs => a == b && beginsWith as bs

/-- Python `needle in hay` for strings: substring containment. -/
def containsSeq (needle : Str) : Str → Bool
  | [] => beginsWith needle []
  | c :: cs => beginsWith needle (c :: cs) || containsSeq needle cs

/-- Python `hay.endswith(needle)`. -/
def endsWithSeq (needle hay : Str) : Bool :=
  beginsWith needle.reverse hay.reverse

/-- Python string `<` comparison: lexicographic by character code. -/
def strLt : Str → Str → Bool
  | [], [] => false
  | [], _ :: _ => true
  | _ :: _, [] => false
  | a :: as, b :: bs => decide (a < b) || (a == b && strLt as bs)

/-- Python `s.rfind(c)` (index of the last occurrence, `-1` when absent),
accumulator form. -/
def pyRfindAux (c : Char) : Str → Int → Int → Int
  | [], _, best => best
  | x :: xs, i, best => pyRfindAux c xs (i + 1) (if x == c then i else best)

/-- Python `s.rfind(c)`. -/
def pyRfind (c : Char) (s : Str) : Int := pyRfindAux c s 0 (-1)

/-! ### Path predicates (src/codemod/query.py and src/codemod/helpers.py) -/

/-- `Query._path_looks_like_code`: no `/.` anywhere, no trailing `~`, and
not a ctags file named `tags` or `TAGS`. -/
def pathLooksLikeCode (path : Str) : Bool :=
  !containsSeq ['/', '.'] path &&
  !(path.getLastD ' ' == '~') &&
  !endsWithSeq ['t', 'a', 'g', 's'] path &&
  !endsWithSeq ['T', 'A', 'G', 'S'] path

/-- The extension test of `os.path.splitext` (posixpath): the path has an
extension iff the last dot comes after the last slash and some character
strictly between the last slash and the last dot is not itself a dot
(so a leading-dots-only basename such as `.profile` has no extension). -/
def splitextHasExt (p : Str) : Bool :=
  let sep := pyRfind '/' p
  let dot := pyRfind '.' p
  decide (sep < dot) &&
  (List.range p.length).any (fun j =>
    decide (sep < (j : Int)) && decide ((j : Int) < dot) && !(p.getD j ' ' == '.'))

/-- `helpers.is_extensionless`: `os.path.splitext(path)[1] == ''`. -/
def is_extensionless (path : Str) : Bool := !splitextHasExt path

/-- The path admission test inside `Query.generate_patches`, with Python
operator precedence as written in the source:
`(_path_looks_like_code(path) and path_filter(path)) or
(inc_extensionless and is_extensionless(path))`. -/
def keepPath (pf : Str → Bool) (incExt : Bool) (path : Str) : Bool :=
  (pathLooksLikeCode path && pf path) || (incExt && is_extensionless path)

/-! ### Patches and the generate_patches pipeline (src/codemod/query.py) -/

/-- A Patch as produced by a suggestor: a half-open line range plus an
optional replacement (`none` = flagging patch).  The path is attached by
Query when the patch is yielded. -/
structure MPatch where
  startLine : Int
  endLine : Int
  newLines : Option (List Str)
deriving DecidableEq

/-- A start or end window endpoint: `none` models `Position(None, None)`,
otherwise the (path, line_number) pair of a concrete Position. -/
abbrev PosSpec := Option (Str × Int)

/-- Normalization of one Python slice bound: negative indices count from
the end (clamped at 0), positive ones are clamped at the length. -/
def pySliceBound (len : Nat) (i : Int) : Nat :=
  if i < 0 then ((len : Int) + i).toNat else min i.toNat len

/-- Python `l[a:b]` for integer bounds. -/
def pySlice (l : List α) (a b : Int) : List α :=
  (l.drop (pySliceBound l.length a)).take
    (pySliceBound l.length b - pySliceBound l.length a)

/-- The `path == start_pos.path and patch.start_line_number <
start_pos.line_number` test (`continue` when true).  A `none` endpoint
has `path = None`, which compares unequal to every string. -/
def startSkip (sp : PosSpec) (path : Str) (p : MPatch) : Bool :=
  match sp with
  | some s => decide (path = s.1) && decide (p.startLine < s.2)
  | none => false

/-- The `path == end_pos.path and patch.end_line_number >=
end_pos.line_number` test (`break` when true). -/
def endBreak (ep : PosSpec) (path : Str) (p : MPatch) : Bool :=
  match ep with
  | some e => decide (path = e.1) && decide (e.2 ≤ p.endLine)
  | none => false

/-- The surfacing test `patch.new_lines is None or patch.new_lines !=
old_lines`, where `old_lines` is the current content of the file at the
patch's range. -/
def keepPatch (lines : List Str) (p : MPatch) : Bool :=
  decide (p.newLines = none) ||
  decide (p.newLines ≠ some (pySlice lines p.startLine p.endLine))

/-- The inner loop of `generate_patches` over one file's suggested
patches: `continue` on pre-start candidates, `break` on the first
candidate at/after the end line, and discard no-op replacements.  For a
static tree the re-read after a yield returns the same `lines`. -/
def processPatches (sp ep : PosSpec) (path : Str) (lines : List Str) :
    List MPatch → List MPatch
  | [] => []
  | p :: ps =>
    if startSkip sp path p then processPatches sp ep path lines ps
    else if endBreak ep path p then []
    else if keepPatch lines p then p :: processPatches sp ep path lines ps
    else processPatches sp ep path lines ps

/-- The candidates of one file that survive the start/end window checks
(the claim's "survives the window checks"), before the no-op comparison. -/
def windowSurvivors (sp ep : PosSpec) (path : Str) : List MPatch → List MPatch
  | [] => []
  | p :: ps =>
    if startSkip sp path p then windowSurvivors sp ep path ps
    else if endBreak ep path p then []
    else p :: windowSurvivors sp ep path ps

/-- `Query._sublist`, accumulator form: `have_started` starts true iff the
starting value is `None`, each item sets it when equal to the starting
value, started items are yielded, and the loop breaks after the ending
value. -/
def sublistAux (startVal endVal : Option Str) : Bool → List Str → List Str
  | _, [] => []
  | started, x :: xs =>
    let started2 := started || decide (startVal = some x)
    let rest := if endVal = some x then [] else sublistAux startVal endVal started2 xs
    if started2 then x :: rest else rest

/-- `Query._sublist`. -/
def sublist (items : List Str) (startVal endVal : Option Str) : List Str :=
  sublistAux startVal endVal startVal.isNone items

/-- The path stream of `generate_patches`: the walked path list restricted
to the start/end window and filtered by the admission test. -/
def filteredPaths (pf : Str → Bool) (incExt : Bool) (sp ep : PosSpec)
    (paths : List Str) : List Str :=
  (sublist paths (sp.map Prod.fst) (ep.map Prod.fst)).filter (keepPath pf incExt)

/-- The outer loop of `generate_patches`: open each path (skipping
unreadable files), run the suggestor, window/filter its patches, and stamp
the path onto each yielded patch. -/
def generateOver (sugg : List Str → List MPatch) (sp ep : PosSpec)
    (fs : Str → Option (List Str)) : List Str → List (Str × MPatch)
  | [] => []
  | path :: rest =>
    (match fs path with
     | none => []
     | some lines =>
       (processPatches sp ep path lines (sugg lines)).map (fun p => (path, p))) ++
    generateOver sugg sp ep fs rest

/-- `Query.generate_patches` over a static file tree: `paths` is the
sorted walked path list and `fs` the (unchanging) file contents, `none`
marking unreadable files. -/
def generatePatches (sugg : List Str → List MPatch) (pf : Str → Bool)
    (incExt : Bool) (sp ep : PosSpec) (paths : List Str)
    (fs : Str → Option (List Str)) : List (Str × MPatch) :=
  generateOver sugg sp ep fs (filteredPaths pf incExt sp ep paths)

/-- Python `l[i]` for a non-negative index; `none` models the IndexError
raised on an out-of-bounds access. -/
def pyIndex : List α → Nat → Option α
  | [], _ => none
  | x :: _, 0 => some x
  | _ :: xs, n + 1 => pyIndex xs n

/-- `Query.compute_percentile` applied to the memoized full unwindowed
patch list: `all_patches[int(len(all_patches) * percentage / 100)]
.start_position`, i.e. the (path, start_line_number) Position of the patch
at the truncated index. -/
def computePercentile (allPatches : List (Str × MPatch)) (percentage : Nat) :
    Option (Str × Int) :=
  (pyIndex allPatches (allPatches.length * percentage / 100)).map
    (fun yp => (yp.1, yp.2.startLine))

/-! ### The index to row/col mapper (src/codemod/base.py) -/

/-- Total length of the concatenated line buffer. -/
def totalLen (lines : List Str) : Nat := (lines.map List.length).sum

/-- Cumulative length of the first `k` lines. -/
def cumLen : List Str → Nat → Nat
  | _, 0 => 0
  | [], _ + 1 => 0
  | l :: ls, k + 1 => l.length + cumLen ls k

/-- The accumulation loop of `_index_to_row_col`: return the current row
as soon as the cumulative length passes the index. -/
def indexToRowColGo (index : Nat) : Nat → Nat → List Str → Option (Nat × Nat)
  | _, _, [] => none
  | cur, row, l :: ls =>
    if index < cur + l.length then some (row, index - cur)
    else indexToRowColGo index (cur + l.length) (row + 1) ls

/-- `_index_to_row_col`: `none` models the IndexError raised on a negative
index or an index at/after the end of the buffer. -/
def indexToRowCol (lines : List Str) (index : Int) : Option (Nat × Nat) :=
  if index < 0 then none else indexToRowColGo index.toNat 0 0 lines

/-! ### The multiline regex search loop (src/codemod/base.py) -/

/-- A regex match: its start and end offsets into the joined buffer. -/
structure RMatch where
  mstart : Nat
  mstop : Nat
deriving DecidableEq

/-- An abstract `regex.search(buffer, pos)` over a buffer of length `len`:
a returned match never starts before `pos` nor after the end of the
buffer (the contract of `re.search`). -/
structure ReSearch (len : Nat) where
  search : Nat → Option RMatch
  search_valid : ∀ pos m, search pos = some m → pos ≤ m.mstart ∧ m.mstart ≤ len

/-- The search loop of `multiline_regex_suggestor.suggestor`: repeatedly
search from the cursor, emit a match, and restart one character past the
match's start (`pos = match.start() + 1`). -/
def mrsLoop (len : Nat) (s : ReSearch len) (pos : Nat) : List RMatch :=
  match h : s.search pos with
  | none => []
  | some m => m :: mrsLoop len s (m.mstart + 1)
termination_by len + 1 - pos
decreasing_by
  have := s.search_valid pos m h
  omega

/-! ### Unfolding equations for the recursive loops -/

theorem processPatches_cons (sp ep : PosSpec) (path : Str) (lines : List Str)
    (p : MPatch) (ps : List MPatch) :
    processPatches sp ep path lines (p :: ps) =
      if startSkip sp path p then processPatches sp ep path lines ps
      else if endBreak ep path p then []
      else if keepPatch lines p then p :: processPatches sp ep path lines ps
      else processPatches sp ep path lines ps := rfl

theorem windowSurvivors_cons (sp ep : PosSpec) (path : Str) (p : MPatch)
    (ps : List MPatch) :
    windowSurvivors sp ep path (p :: ps) =
      if startSkip sp path p then windowSurvivors sp ep path ps
      else if endBreak ep path p then []
      else p :: windowSurvivors sp ep path ps := rfl

theorem sublistAux_cons (sv ev : Option Str) (started : Bool) (x : Str)
    (xs : List Str) :
    sublistAux sv ev started (x :: xs) =
      if started || decide (sv = some x) then
        x :: (if ev = some x then []
              else sublistAux sv ev (started || decide (sv = some x)) xs)
      else (if ev = some x then []
            else sublistAux sv ev (started || decide (sv = some x)) xs) := rfl

theorem generateOver_cons (sugg : List Str → List MPatch) (sp ep : PosSpec)
    (fs : Str → Option (List Str)) (path : Str) (rest : List Str) :
    generateOver sugg sp ep fs (path :: rest) =
      (match fs path with
       | none => []
       | some lines =>
         (processPatches sp ep path lines (sugg lines)).map (fun p => (path, p))) ++
      generateOver sugg sp ep fs rest := rfl

theorem indexToRowColGo_cons (index cur row : Nat) (l : Str) (ls : List Str) :
    indexToRowColGo index cur row (l :: ls) =
      if index < cur + l.length then some (row, index - cur)
      else indexToRowColGo index (cur + l.length) (row + 1) ls := rfl

/-! ### Claim C9: the index to row/col mapper -/

theorem totalLen_cons (l : Str) (ls : List Str) :
    totalLen (l :: ls) = l.length + totalLen ls := by
  simp [totalLen]

theorem cumLen_le (ls : List Str) : ∀ a b : Nat, a ≤ b → cumLen ls a ≤ cumLen ls b := by
  induction ls with
  | nil =>
    intro a b _
    cases a <;> cases b <;> simp [cumLen]
  | cons l ls ih =>
    intro a b hab
    cases a with
    | zero =>
      cases b with
      | zero => exact le_refl _
      | succ b2 => simp [cumLen]
    | succ a2 =>
      cases b with
      | zero => omega
      | succ b2 =>
        simp only [cumLen]
        have := ih a2 b2 (by omega)
        omega

theorem indexToRowColGo_none (idx : Nat) : ∀ (ls : List Str) (cur row : Nat),
    cur + totalLen ls ≤ idx → indexToRowColGo idx cur row ls = none := by
  intro ls
  induction ls with
  | nil => intro cur row _; rfl
  | cons l ls ih =>
    intro cur row h
    rw [totalLen_cons] at h
    rw [indexToRowColGo_cons, if_neg (by omega)]
    exact ih (cur + l.length) (row + 1) (by omega)

theorem indexToRowColGo_some (idx : Nat) : ∀ (ls : List Str) (cur row : Nat),
    cur ≤ idx → idx < cur + totalLen ls →
    ∃ r : Nat, indexToRowColGo idx cur row ls = some (row + r, idx - (cur + cumLen ls r)) ∧
      cur + cumLen ls r ≤ idx ∧ idx < cur + cumLen ls (r + 1) ∧ r < ls.length := by
  intro ls
  induction ls with
  | nil =>
    intro cur row h1 h2
    simp [totalLen] at h2
    omega
  | cons l ls ih =>
    intro cur row h1 h2
    rw [totalLen_cons] at h2
    by_cases hc : idx < cur + l.length
    · refine ⟨0, ?_, ?_, ?_, ?_⟩
      · rw [indexToRowColGo_cons, if_pos hc]
        simp [cumLen]
      · simp [cumLen]
        omega
      · simp only [cumLen]
        omega
      · simp
    · obtain ⟨r, hr, hlo, hhi, hlen⟩ :=
        ih (cur + l.length) (row + 1) (by omega) (by omega)
      refine ⟨r + 1, ?_, ?_, ?_, ?_⟩
      · rw [indexToRowColGo_cons, if_neg hc, hr]
        simp only [cumLen, Option.some.injEq, Prod.mk.injEq]
        omega
      · simp only [cumLen]
        omega
      · simp only [cumLen]
        omega
      · simp only [List.length_cons]
        omega

/-- C9: for offsets in `[0, totalLen)` the mapper returns the 0-based row
of the first line whose cumulative length (terminators included) exceeds
the offset, together with the residual column inside that row; negative
offsets and offsets at/after the total buffer length fail (IndexError,
modelled `none`). -/
theorem indexToRowCol_spec (lines : List Str) (index : Int) :
    (0 ≤ index → index < (totalLen lines : Int) →
      ∃ r : Nat, indexToRowCol lines index = some (r, index.toNat - cumLen lines r) ∧
        cumLen lines r ≤ index.toNat ∧ index.toNat < cumLen lines (r + 1) ∧
        ∀ r2 : Nat, r2 < r → cumLen lines (r2 + 1) ≤ index.toNat) ∧
    (index < 0 → indexToRowCol lines index = none) ∧
    ((totalLen lines : Int) ≤ index → indexToRowCol lines index = none) := by
  refine ⟨?_, ?_, ?_⟩
  · intro h0 hlt
    rw [indexToRowCol, if_neg (by omega)]
    obtain ⟨r, hr, hlo, hhi, hlen⟩ :=
      indexToRowColGo_some index.toNat lines 0 0 (by omega) (by omega)
    refine ⟨r, ?_, by omega, by omega, ?_⟩
    · rw [hr]
      simp
    · intro r2 h2
      calc cumLen lines (r2 + 1) ≤ cumLen lines r := cumLen_le lines (r2 + 1) r (by omega)
        _ ≤ index.toNat := by omega
  · intro hneg
    rw [indexToRowCol, if_pos hneg]
  · intro hge
    rw [indexToRowCol]
    by_cases hneg : index < 0
    · rw [if_pos hneg]
    · rw [if_neg hneg]
      exact indexToRowColGo_none index.toNat lines 0 0 (by omega)

/-- Witness for C9 at buffer `["ab", "c"]` and offset 2 (row 1, col 0). -/
theorem indexToRowCol_spec_witness :
    ((0 : Int) ≤ 2 ∧ (2 : Int) < (totalLen [['a', 'b'], ['c']] : Int)) ∧
    ∃ r : Nat, indexToRowCol [['a', 'b'], ['c']] 2 =
        some (r, (2 : Int).toNat - cumLen [['a', 'b'], ['c']] r) ∧
      cumLen [['a', 'b'], ['c']] r ≤ (2 : Int).toNat ∧
      (2 : Int).toNat < cumLen [['a', 'b'], ['c']] (r + 1) ∧
      ∀ r2 : Nat, r2 < r → cumLen [['a', 'b'], ['c']] (r2 + 1) ≤ (2 : Int).toNat :=
  ⟨⟨by decide, by decide⟩,
    (indexToRowCol_spec [['a', 'b'], ['c']] 2).1 (by decide) (by decide)⟩

/-! ### Claim C5: compute_percentile -/

theorem pyIndex_lt (l : List α) : ∀ i : Nat, i < l.length → ∃ x, pyIndex l i = some x := by
  induction l with
  | nil =>
    intro i h
    simp at h
  | cons x xs ih =>
    intro i h
    cases i with
    | zero => exact ⟨x, rfl⟩
    | succ j =>
      exact ih j (by simp at h; omega)

theorem pyIndex_ge (l : List α) : ∀ i : Nat, l.length ≤ i → pyIndex l i = none := by
  induction l with
  | nil =>
    intro i _
    cases i <;> rfl
  | cons x xs ih =>
    intro i h
    cases i with
    | zero => simp at h
    | succ j =>
      exact ih j (by simp at h; omega)

/-- C5 fails as stated at percentage 100: on a concrete one-patch list the
accessed index is `1 * 100 / 100 = 1`, out of bounds, so
`compute_percentile(100)` raises an IndexError (modelled `none`) — it is
neither out-of-bounds-safe nor defined as the last patch's position. -/
theorem computePercentile_100_counterexample :
    computePercentile [(['a'], ⟨0, 1, none⟩)] 100 = none ∧
    [(['a'], (⟨0, 1, none⟩ : MPatch))] ≠ [] := by
  constructor
  · decide
  · decide

/-- C5 (amended): on a non-empty full unwindowed patch list,
`compute_percentile(0)` returns the start position of the first patch, and
for `p < 100` `compute_percentile(p)` returns the start position of the
patch at index `floor(len(list) * p / 100)`; but `compute_percentile(100)`
always accesses index `len(list)` and raises an IndexError (modelled
`none`) instead of being out-of-bounds-safe or returning the last patch's
position. -/
theorem computePercentile_spec (l : List (Str × MPatch)) (p : Nat) :
    (l ≠ [] → p < 100 →
      ∃ yp, pyIndex l (l.length * p / 100) = some yp ∧
        computePercentile l p = some (yp.1, yp.2.startLine)) ∧
    (∀ y rest, l = y :: rest → computePercentile l 0 = some (y.1, y.2.startLine)) ∧
    computePercentile l 100 = none := by
  refine ⟨?_, ?_, ?_⟩
  · intro hne hp
    have hlen : 0 < l.length := List.length_pos.2 hne
    have hidx : l.length * p / 100 < l.length := by
      rw [Nat.div_lt_iff_lt_mul (by omega)]
      exact mul_lt_mul_of_pos_left hp hlen
    obtain ⟨yp, hyp⟩ := pyIndex_lt l _ hidx
    exact ⟨yp, hyp, by rw [computePercentile, hyp, Option.map_some']⟩
  · intro y rest hl
    subst hl
    simp [computePercentile, pyIndex]
  · rw [computePercentile, Nat.mul_div_cancel _ (by omega),
      pyIndex_ge l l.length (le_refl _)]
    rfl

/-- Witness for the amended C5 at a concrete two-patch list. -/
theorem computePercentile_spec_witness :
    ([(['a'], (⟨2, 3, none⟩ : MPatch)), (['b'], ⟨0, 1, none⟩)] ≠
      ([] : List (Str × MPatch))) ∧ 50 < 100 ∧
    ∃ yp, pyIndex [(['a'], (⟨2, 3, none⟩ : MPatch)), (['b'], ⟨0, 1, none⟩)]
        ([(['a'], (⟨2, 3, none⟩ : MPatch)), (['b'], ⟨0, 1, none⟩)].length * 50 / 100) =
        some yp ∧
      computePercentile [(['a'], (⟨2, 3, none⟩ : MPatch)), (['b'], ⟨0, 1, none⟩)] 50 =
        some (yp.1, yp.2.startLine) :=
  ⟨by decide, by decide,
    (computePercentile_spec [(['a'], ⟨2, 3, none⟩), (['b'], ⟨0, 1, none⟩)] 50).1
      (by decide) (by decide)⟩

/-! ### Claim C8: termination of the multiline search loop -/

theorem mrsLoop_len (len : Nat) (s : ReSearch len) : ∀ (fuel pos : Nat),
    len + 1 - pos ≤ fuel → (mrsLoop len s pos).length ≤ len + 1 - pos := by
  intro fuel
  induction fuel with
  | zero =>
    intro pos h
    rcases hs : s.search pos with _ | m
    · rw [mrsLoop, hs]
      simp
    · have := s.search_valid pos m hs
      omega
  | succ f ih =>
    intro pos h
    rcases hs : s.search pos with _ | m
    · rw [mrsLoop, hs]
      simp
    · rw [mrsLoop, hs]
      have hv := s.search_valid pos m hs
      have := ih (m.mstart + 1) (by omega)
      simp only [List.length_cons]
      omega

/-- C8: on every iteration the search loop of multiline_regex_suggestor
moves its cursor strictly forward (to one past the match start, which the
search contract places at or after the cursor), so the loop terminates and
emits at most `len + 1 - pos` matches from cursor `pos` over a buffer of
length `len`. -/
theorem mrsLoop_terminating (len : Nat) (s : ReSearch len) (pos : Nat) :
    (mrsLoop len s pos).length ≤ len + 1 - pos ∧
    (∀ m, s.search pos = some m → pos < m.mstart + 1) := by
  constructor
  · exact mrsLoop_len len s (len + 1 - pos) pos (le_refl _)
  · intro m hm
    have := s.search_valid pos m hm
    omega

/-- A concrete searcher over a two-character buffer for the C8 witness. -/
def rsearchEx : ReSearch 2 where
  search pos := if pos ≤ 1 then some ⟨1, 2⟩ else none
  search_valid pos m h := by
    simp only [] at h
    by_cases hp : pos ≤ 1
    · rw [if_pos hp] at h
      cases h
      exact ⟨by simpa using hp, by decide⟩
    · rw [if_neg hp] at h
      cases h

/-- Witness for C8 at a concrete searcher. -/
theorem mrsLoop_terminating_witness :
    (mrsLoop 2 rsearchEx 0).length ≤ 2 + 1 - 0 ∧
    (∀ m, rsearchEx.search 0 = some m → 0 < m.mstart + 1) :=
  mrsLoop_terminating 2 rsearchEx 0

/-! ### Claim C10: start path absent from the walked paths -/

theorem sublistAux_not_started (sv : Str) (ev : Option Str) :
    ∀ l : List Str, sv ∉ l → sublistAux (some sv) ev false l = [] := by
  intro l
  induction l with
  | nil => intro _; rfl
  | cons x xs ih =>
    intro h
    have hne : sv ≠ x := by
      intro hc
      exact h (by simp [hc])
    rw [sublistAux_cons]
    have hd : decide ((some sv : Option Str) = some x) = false := by
      simp [hne]
    rw [hd]
    simp only [Bool.or_false, if_neg (by simp : ¬(false = true))]
    by_cases he : ev = some x
    · rw [if_pos he]
    · rw [if_neg he]
      exact ih (fun hc => h (by simp [hc]))

/-- C10: if generate_patches is given a start position whose path does not
occur among the walked paths, the window sublist is empty and the
generator yields no patches at all. -/
theorem generatePatches_missing_start (sugg : List Str → List MPatch)
    (pf : Str → Bool) (incExt : Bool) (spath : Str) (sline : Int) (ep : PosSpec)
    (paths : List Str) (fs : Str → Option (List Str)) (h : spath ∉ paths) :
    generatePatches sugg pf incExt (some (spath, sline)) ep paths fs = [] := by
  rw [generatePatches, filteredPaths, sublist]
  rw [show (Option.map Prod.fst (some (spath, sline))) = some spath from rfl]
  rw [show (some spath : Option Str).isNone = false from rfl]
  rw [sublistAux_not_started spath _ paths h]
  rfl

/-- Witness for C10 at a concrete tree. -/
theorem generatePatches_missing_start_witness :
    (['b'] ∉ [['a']]) ∧
    generatePatches (fun _ => [⟨0, 1, none⟩]) (fun _ => true) false
      (some (['b'], 0)) none [['a']] (fun _ => some [['x']]) = [] :=
  ⟨by decide,
    generatePatches_missing_start _ _ _ ['b'] 0 none [['a']] _ (by decide)⟩

/-! ### Claim C4: the path admission test -/

/-- C4 describes the intended test `looks_like_code AND (path_filter OR
(inc_extensionless AND extensionless))`, but the code's Python operator
precedence gives `(looks_like_code AND path_filter) OR (inc_extensionless
AND extensionless)`: the ctags path `./tags` fails _path_looks_like_code
and is rejected by a path filter refusing every path, yet with
inc_extensionless enabled it is admitted and generate_patches yields a
patch from it. -/
theorem keepPath_precedence :
    pathLooksLikeCode ['.', '/', 't', 'a', 'g', 's'] = false ∧
    is_extensionless ['.', '/', 't', 'a', 'g', 's'] = true ∧
    keepPath (fun _ => false) true ['.', '/', 't', 'a', 'g', 's'] = true ∧
    generatePatches (fun _ => [⟨0, 1, none⟩]) (fun _ => false) true none none
      [['.', '/', 't', 'a', 'g', 's']] (fun _ => some [['x']]) =
      [(['.', '/', 't', 'a', 'g', 's'], ⟨0, 1, none⟩)] := by
  refine ⟨by decide, by decide, by decide, by decide⟩

/-! ### Claim C2: no-op patches are discarded, flagging patches surfaced -/

theorem processPatches_eq (sp ep : PosSpec) (path : Str) (lines : List Str) :
    ∀ l : List MPatch, processPatches sp ep path lines l =
      (windowSurvivors sp ep path l).filter (keepPatch lines) := by
  intro l
  induction l with
  | nil => rfl
  | cons p ps ih =>
    rw [processPatches_cons, windowSurvivors_cons]
    by_cases h1 : startSkip sp path p
    · rw [if_pos h1, if_pos h1, ih]
    · rw [if_neg h1, if_neg h1]
      by_cases h2 : endBreak ep path p
      · rw [if_pos h2, if_pos h2]
        rfl
      · rw [if_neg h2, if_neg h2, List.filter_cons]
        by_cases h3 : keepPatch lines p
        · rw [if_pos h3, if_pos h3, ih]
        · rw [if_neg h3, if_neg h3, ih]

theorem mem_generateOver (sugg : List Str → List MPatch) (sp ep : PosSpec)
    (fs : Str → Option (List Str)) :
    ∀ (ps : List Str) (yp : Str × MPatch), yp ∈ generateOver sugg sp ep fs ps →
      yp.1 ∈ ps ∧ ∃ lines, fs yp.1 = some lines ∧
        yp.2 ∈ processPatches sp ep yp.1 lines (sugg lines) := by
  intro ps
  induction ps with
  | nil =>
    intro yp h
    exact absurd h (by simp [generateOver])
  | cons q qs ih =>
    intro yp h
    rw [generateOver_cons] at h
    rcases List.mem_append.1 h with h | h
    · rcases hfs : fs q with _ | lines
      · rw [hfs] at h
        simp at h
      · rw [hfs] at h
        rcases List.mem_map.1 h with ⟨p2, hp2, heq⟩
        rw [← heq]
        exact ⟨by simp, lines, hfs, hp2⟩
    · obtain ⟨h1, h2⟩ := ih yp h
      exact ⟨by simp [h1], h2⟩

theorem generateOver_mem_of (sugg : List Str → List MPatch) (sp ep : PosSpec)
    (fs : Str → Option (List Str)) :
    ∀ (ps : List Str) (path : Str) (lines : List Str) (p : MPatch),
      path ∈ ps → fs path = some lines →
      p ∈ processPatches sp ep path lines (sugg lines) →
      (path, p) ∈ generateOver sugg sp ep fs ps := by
  intro ps
  induction ps with
  | nil =>
    intro path lines p h
    simp at h
  | cons q qs ih =>
    intro path lines p hmem hfs hp
    rw [generateOver_cons]
    apply List.mem_append.2
    rcases List.mem_cons.1 hmem with h | h
    · left
      subst h
      rw [hfs]
      exact List.mem_map.2 ⟨p, hp, rfl⟩
    · right
      exact ih path lines p h hfs hp

/-- C2: over a static tree, generate_patches never yields a patch with
non-null new_lines equal to the file's current content at the patch's
range (every such no-op candidate is silently discarded), while every
flagging candidate (new_lines null) that survives the window checks on a
processed file is yielded. -/
theorem generatePatches_noop (sugg : List Str → List MPatch) (pf : Str → Bool)
    (incExt : Bool) (sp ep : PosSpec) (paths : List Str)
    (fs : Str → Option (List Str)) :
    (∀ path p, (path, p) ∈ generatePatches sugg pf incExt sp ep paths fs →
      ∀ lines, fs path = some lines →
        p.newLines = none ∨ p.newLines ≠ some (pySlice lines p.startLine p.endLine)) ∧
    (∀ path lines p, path ∈ filteredPaths pf incExt sp ep paths →
      fs path = some lines → p ∈ windowSurvivors sp ep path (sugg lines) →
      p.newLines = none →
      (path, p) ∈ generatePatches sugg pf incExt sp ep paths fs) := by
  constructor
  · intro path p hmem lines hfs
    obtain ⟨_, lines2, hfs2, hp⟩ :=
      mem_generateOver sugg sp ep fs (filteredPaths pf incExt sp ep paths) (path, p) hmem
    rw [hfs] at hfs2
    have hl : lines2 = lines := (Option.some.inj hfs2).symm
    subst hl
    rw [processPatches_eq] at hp
    have hk := (List.mem_filter.1 hp).2
    rw [keepPatch] at hk
    simpa only [Bool.or_eq_true, decide_eq_true_eq] using hk
  · intro path lines p hpath hfs hws hnone
    rw [generatePatches]
    apply generateOver_mem_of sugg sp ep fs _ path lines p hpath hfs
    rw [processPatches_eq]
    apply List.mem_filter.2
    refine ⟨hws, ?_⟩
    rw [keepPatch]
    simp [hnone]

/-- Witness for C2 at a concrete tree: the flagging window survivor is
indeed yielded. -/
theorem generatePatches_noop_witness :
    (['a'] ∈ filteredPaths (fun _ => true) false none none [['a']]) ∧
    ((⟨0, 1, none⟩ : MPatch) ∈
      windowSurvivors none none ['a'] [(⟨0, 1, none⟩ : MPatch)]) ∧
    (['a'], (⟨0, 1, none⟩ : MPatch)) ∈
      generatePatches (fun _ => [⟨0, 1, none⟩]) (fun _ => true) false none none
        [['a']] (fun _ => some [['x']]) :=
  ⟨by decide, by decide,
    (generatePatches_noop (fun _ => [⟨0, 1, none⟩]) (fun _ => true) false none none
      [['a']] (fun _ => some [['x']])).2 ['a'] [['x']] ⟨0, 1, none⟩
      (by decide) rfl (by decide) rfl⟩

/-! ### Claim C6: the end-position cutoff -/

theorem processPatches_no_endBreak (sp ep : PosSpec) (path : Str) (lines : List Str) :
    ∀ l p, p ∈ processPatches sp ep path lines l → endBreak ep path p = false := by
  intro l
  induction l with
  | nil =>
    intro p h
    simp [processPatches] at h
  | cons q ps ih =>
    intro p h
    rw [processPatches_cons] at h
    by_cases h1 : startSkip sp path q
    · rw [if_pos h1] at h
      exact ih p h
    · rw [if_neg h1] at h
      by_cases h2 : endBreak ep path q
      · rw [if_pos h2] at h
        simp at h
      · rw [if_neg h2] at h
        by_cases h3 : keepPatch lines q
        · rw [if_pos h3] at h
          rcases List.mem_cons.1 h with h | h
          · rw [h]
            exact Bool.not_eq_true _ ▸ (by simpa using h2)
          · exact ih p h
        · rw [if_neg h3] at h
          exact ih p h

theorem sublistAux_before_end (sv : Option Str) (epath : Str) :
    ∀ (items : List Str) (started : Bool), epath ∈ items →
      items.Pairwise (fun a b => strLt a b = true) →
      ∀ x ∈ sublistAux sv (some epath) started items,
        x = epath ∨ strLt x epath = true := by
  intro items
  induction items with
  | nil =>
    intro started h
    simp at h
  | cons y ys ih =>
    intro started hmem hpw x hx
    rw [sublistAux_cons] at hx
    by_cases hey : (some epath : Option Str) = some y
    · have heq : epath = y := Option.some.inj hey
      rw [if_pos hey] at hx
      by_cases hs : (started || decide (sv = some y)) = true
      · rw [if_pos hs] at hx
        rcases List.mem_cons.1 hx with h | h
        · exact Or.inl (h.trans heq.symm)
        · simp at h
      · rw [if_neg hs] at hx
        simp at hx
    · have hne : epath ≠ y := fun hc => hey (by rw [hc])
      have hys : epath ∈ ys := by
        rcases List.mem_cons.1 hmem with h | h
        · exact absurd h hne
        · exact h
      rw [if_neg hey] at hx
      by_cases hs : (started || decide (sv = some y)) = true
      · rw [if_pos hs] at hx
        rcases List.mem_cons.1 hx with h | h
        · subst h
          exact Or.inr ((List.pairwise_cons.1 hpw).1 epath hys)
        · exact ih _ hys (List.Pairwise.of_cons hpw) x h
      · rw [if_neg hs] at hx
        exact ih _ hys (List.Pairwise.of_cons hpw) x hx

/-- C6: when the end position names a walked path, generate_patches yields
no patch from the end file whose end_line_number reaches the end line, and
no patch at all from any path lexicographically after the end file — the
whole traversal stops inside the end file. -/
theorem generatePatches_end_window (sugg : List Str → List MPatch)
    (pf : Str → Bool) (incExt : Bool) (sp : PosSpec) (epath : Str) (eline : Int)
    (paths : List Str) (fs : Str → Option (List Str))
    (hpw : paths.Pairwise (fun a b => strLt a b = true)) (hmem : epath ∈ paths) :
    ∀ path p,
      (path, p) ∈ generatePatches sugg pf incExt sp (some (epath, eline)) paths fs →
      (path = epath → p.endLine < eline) ∧ (path = epath ∨ strLt path epath = true) := by
  intro path p hyp
  obtain ⟨hin, lines, hfs, hp⟩ :=
    mem_generateOver sugg sp (some (epath, eline)) fs _ (path, p) hyp
  constructor
  · intro heq
    subst heq
    have hb := processPatches_no_endBreak sp (some (path, eline)) path lines _ p hp
    rw [endBreak] at hb
    simp only [decide_eq_true_eq, Bool.and_eq_false_iff, decide_eq_false_iff_not] at hb
    rcases hb with hb | hb
    · exact absurd trivial hb
    · omega
  · have hsub : path ∈ sublist paths (sp.map Prod.fst) (some epath) := by
      have := (List.mem_filter.1 (by exact hin)).1
      simpa [filteredPaths] using this
    exact sublistAux_before_end (sp.map Prod.fst) epath paths _ hmem hpw path hsub

/-- Witness for C6 at a concrete tree: with end position `b.php:1` over
paths `a.php < b.php < c.php`, the patch yielded from `a.php` satisfies
both conclusions. -/
theorem generatePatches_end_window_witness :
    (([['a'], ['b'], ['c']] : List Str).Pairwise (fun a b => strLt a b = true)) ∧
    (['b'] ∈ ([['a'], ['b'], ['c']] : List Str)) ∧
    ((['a'], (⟨0, 2, none⟩ : MPatch)) ∈
      generatePatches (fun _ => [⟨0, 2, none⟩]) (fun _ => true) false none
        (some (['b'], 1)) [['a'], ['b'], ['c']] (fun _ => some [['x'], ['y']])) ∧
    ((['a'] = (['b'] : Str) → (⟨0, 2, none⟩ : MPatch).endLine < 1) ∧
      (['a'] = (['b'] : Str) ∨ strLt ['a'] ['b'] = true)) :=
  ⟨by decide, by decide, by decide,
    generatePatches_end_window (fun _ => [⟨0, 2, none⟩]) (fun _ => true) false none
      ['b'] 1 [['a'], ['b'], ['c']] (fun _ => some [['x'], ['y']])
      (by decide) (by decide) ['a'] ⟨0, 2, none⟩ (by decide)⟩

/-! ### Claim C1: the yielded patch stream is ordered -/

theorem sublistAux_sublist (sv ev : Option Str) :
    ∀ (l : List Str) (started : Bool), List.Sublist (sublistAux sv ev started l) l := by
  intro l
  induction l with
  | nil =>
    intro started
    rfl
  | cons x xs ih =>
    intro started
    rw [sublistAux_cons]
    have hrest : List.Sublist (if ev = some x then []
        else sublistAux sv ev (started || decide (sv = some x)) xs) xs := by
      by_cases he : ev = some x
      · rw [if_pos he]
        exact List.nil_sublist xs
      · rw [if_neg he]
        exact ih _
    by_cases hs : (started || decide (sv = some x)) = true
    · rw [if_pos hs]
      exact List.Sublist.cons₂ x hrest
    · rw [if_neg hs]
      exact List.Sublist.cons x hrest

theorem processPatches_sublist (sp ep : PosSpec) (path : Str) (lines : List Str) :
    ∀ l : List MPatch, List.Sublist (processPatches sp ep path lines l) l := by
  intro l
  induction l with
  | nil => rfl
  | cons p ps ih =>
    rw [processPatches_cons]
    by_cases h1 : startSkip sp path p
    · rw [if_pos h1]
      exact List.Sublist.cons p ih
    · rw [if_neg h1]
      by_cases h2 : endBreak ep path p
      · rw [if_pos h2]
        exact List.nil_sublist _
      · rw [if_neg h2]
        by_cases h3 : keepPatch lines p
        · rw [if_pos h3]
          exact List.Sublist.cons₂ p ih
        · rw [if_neg h3]
          exact List.Sublist.cons p ih

theorem generateOver_pairwise (sugg : List Str → List MPatch) (sp ep : PosSpec)
    (fs : Str → Option (List Str))
    (hsugg : ∀ lines, (sugg lines).Pairwise (fun p q => p.startLine ≤ q.startLine)) :
    ∀ ps : List Str, ps.Pairwise (fun a b => strLt a b = true) →
      (generateOver sugg sp ep fs ps).Pairwise
        (fun x y => strLt x.1 y.1 = true ∨ (x.1 = y.1 ∧ x.2.startLine ≤ y.2.startLine)) := by
  intro ps
  induction ps with
  | nil =>
    intro _
    simp [generateOver]
  | cons q qs ih =>
    intro hpw
    rw [generateOver_cons]
    apply List.pairwise_append.2
    refine ⟨?_, ih (List.Pairwise.of_cons hpw), ?_⟩
    · rcases hfs : fs q with _ | lines
      · simp
      · apply List.pairwise_map.2
        apply List.Pairwise.imp (fun hle => Or.inr ⟨rfl, hle⟩)
        exact (hsugg lines).sublist (processPatches_sublist sp ep q lines (sugg lines))
    · intro x hx y hy
      have hx1 : x.1 = q := by
        rcases hfs : fs q with _ | lines
        · rw [hfs] at hx
          simp at hx
        · rw [hfs] at hx
          rcases List.mem_map.1 hx with ⟨p2, _, heq⟩
          rw [← heq]
      have hy1 : y.1 ∈ qs := (mem_generateOver sugg sp ep fs qs y hy).1
      left
      rw [hx1]
      exact (List.pairwise_cons.1 hpw).1 y.1 hy1

/-- C1: over a static tree whose walked path list is strictly sorted and
with a suggestor yielding patches in non-decreasing start_line_number
order on every file, generate_patches never yields two patches in
decreasing (path, start_line_number) lexicographic order: every earlier
patch has a lexicographically smaller path, or the same path and a
start_line_number that is not larger. -/
theorem generatePatches_ordered (sugg : List Str → List MPatch) (pf : Str → Bool)
    (incExt : Bool) (sp ep : PosSpec) (paths : List Str)
    (fs : Str → Option (List Str))
    (hpaths : paths.Pairwise (fun a b => strLt a b = true))
    (hsugg : ∀ lines, (sugg lines).Pairwise (fun p q => p.startLine ≤ q.startLine)) :
    (generatePatches sugg pf incExt sp ep paths fs).Pairwise
      (fun x y => strLt x.1 y.1 = true ∨ (x.1 = y.1 ∧ x.2.startLine ≤ y.2.startLine)) := by
  rw [generatePatches]
  apply generateOver_pairwise sugg sp ep fs hsugg
  rw [filteredPaths]
  exact hpaths.sublist ((List.filter_sublist _).trans (sublistAux_sublist _ _ paths _))

/-- Witness for C1 at a concrete two-file tree. -/
theorem generatePatches_ordered_witness :
    (([['a'], ['b']] : List Str).Pairwise (fun a b => strLt a b = true)) ∧
    (∀ lines : List Str, lines = lines →
      ([(⟨0, 1, none⟩ : MPatch), ⟨2, 3, none⟩] : List MPatch).Pairwise
        (fun p q => p.startLine ≤ q.startLine)) ∧
    (generatePatches (fun _ => [⟨0, 1, none⟩, ⟨2, 3, none⟩]) (fun _ => true) false
      none none [['a'], ['b']] (fun _ => some [['x']])).Pairwise
      (fun x y => strLt x.1 y.1 = true ∨ (x.1 = y.1 ∧ x.2.startLine ≤ y.2.startLine)) :=
  ⟨by decide, fun _ _ => by decide,
    generatePatches_ordered (fun _ => [⟨0, 1, none⟩, ⟨2, 3, none⟩]) (fun _ => true)
      false none none [['a'], ['b']] (fun _ => some [['x']])
      (by decide)
      (by
        intro lines
        show ([(⟨0, 1, none⟩ : MPatch), ⟨2, 3, none⟩] : List MPatch).Pairwise
          (fun p q => p.startLine ≤ q.startLine)
        decide)⟩

end Codemod
